import Mathlib

set_option maxRecDepth 1000000

/-!
Verification of the staged IPv4 scanner (`smart-scan`).

The scanner's core is a JavaScript/TypeScript program.  This file gives a
shallow embedding of its data model and operations:

* JavaScript 32-bit integer coercions (`ToUint32` / `ToInt32`) are modelled
  explicitly over `Nat` / `Int`;
* string-processing helpers (`String.prototype.split` with a one-character
  separator, `Number`, `parseInt`, `parseFloat`) are modelled over
  `List Char`, restricted to the fragments the scanner exercises (decimal
  numerals; the exotic `Number` forms — hex, exponents, values at or above
  2^53 where floats round — occur in no statement proved here);
* the stateful bounded-concurrency queue is modelled as a step function on
  an explicit counter/queue state;
* network probes are modelled as total functions of the I/O event that
  settles them, and latencies as exact rationals.

All definitions are executable; the theorems at the end settle the claims
about the program.
-/

namespace SmartScan

/-! ## JavaScript 32-bit numeric semantics -/

/-- `ToUint32` of an exact integer-valued JS number: the value modulo `2^32`,
as a natural number.  This is what `x >>> 0` produces. -/
def toUint32 (x : Int) : Nat := (x % (2 ^ 32 : Int)).toNat

/-- Read a 32-bit pattern (a natural number) as a signed 32-bit value.
`ToInt32` of an integer-valued JS number `x` is `toInt32 (toUint32 x)`. -/
def toInt32 (n : Nat) : Int :=
  if n % 2 ^ 32 < 2 ^ 31 then (n % 2 ^ 32 : Nat) else (n % 2 ^ 32 : Nat) - 2 ^ 32

/-- A JS number that is either an exact integer or `NaN` (`none`).
`NaN` arises from `Number`/`parseInt`/`parseFloat` on malformed input. -/
abbrev JSInt := Option Int

/-- `ToUint32` of a possibly-`NaN` JS number (`ToUint32 NaN = 0`). -/
def toUint32V : JSInt → Nat
  | none => 0
  | some v => toUint32 v

/-- JS bitwise `&` on integer-valued (possibly `NaN`) operands. -/
def jsAnd (a b : JSInt) : Int :=
  toInt32 (Nat.land (toUint32V a) (toUint32V b))

/-- JS bitwise `~` (needed for the literal `~0` in the mask computation). -/
def jsNot (a : JSInt) : Int :=
  toInt32 (2 ^ 32 - 1 - toUint32V a)

/-- JS `<<` (left shift): shift count is taken mod 32, result is signed. -/
def jsShl (a : JSInt) (k : Nat) : Int :=
  toInt32 (toUint32V a * 2 ^ (k % 32))

/-- JS `>>` (sign-propagating right shift): arithmetic shift of the
`ToInt32` reading, i.e. floor division by `2^k`. -/
def jsShr (a : JSInt) (k : Nat) : Int :=
  Int.fdiv (toInt32 (toUint32V a)) (2 ^ (k % 32))

/-- JS `>>>` (zero-fill right shift): logical shift of the `ToUint32`
reading; in particular `x >>> 0 = ToUint32 x`. -/
def jsUshr (a : JSInt) (k : Nat) : Nat :=
  toUint32V a / 2 ^ (k % 32)

/-! ## String helpers: `split`, `Number`, `parseInt`, decimal rendering -/

/-- JS `String.prototype.split` with a one-character separator (always
returns at least one piece; a trailing separator yields a trailing `""`). -/
def splitCh (sep : Char) : List Char → List (List Char)
  | [] => [[]]
  | c :: cs =>
    if c = sep then [] :: splitCh sep cs
    else
      match splitCh sep cs with
      | [] => [[c]]
      | h :: t => (c :: h) :: t

/-- Decimal value of a list of digit characters. -/
def decVal (l : List Char) : Nat :=
  l.foldl (fun a c => 10 * a + (c.toNat - '0'.toNat)) 0

/-- Modelled fragment of JS `Number(s)` as applied to the dot-free pieces of
an address: `""` is `0`, a non-empty all-digit string is its decimal value,
anything else is `NaN`.  (Signs, whitespace, hex/exponent forms and values
at or above `2^53` — where `Number` rounds — never occur in the statements
proved below.) -/
def jsNumberOct (l : List Char) : JSInt :=
  if l = [] then some 0
  else if l.all (·.isDigit) then some (decVal l)
  else none

/-- Leading-digit-run value used by `parseInt`: `none` when the string does
not start with a digit (`parseInt` then returns `NaN`); trailing
non-digits are ignored. -/
def digitsVal (l : List Char) : JSInt :=
  let d := l.takeWhile (·.isDigit)
  if d = [] then none else some (decVal d)

/-- JS `parseInt(s, 10)`: skip leading whitespace, optional sign, then the
longest leading digit run; `NaN` if that run is empty. -/
def jsParseInt (l : List Char) : JSInt :=
  match l.dropWhile (·.isWhitespace) with
  | '-' :: rest => (digitsVal rest).map (fun v => -v)
  | '+' :: rest => digitsVal rest
  | l1 => digitsVal l1

/-- Canonical decimal rendering of a natural number, as JS `String(n)`
produces for the non-negative integers appearing in `intToIp`. -/
def natChars (n : Nat) : List Char := Nat.toDigits 10 n

/-! ## Address-range math (`scanner.js` / `smart-scan.ts`) -/

/-- `ipToInt`, the fold `(a, b) => (a << 8) + b`: JS `<<` coerces `NaN` to
`0`, JS `+` propagates `NaN`. -/
def ipStep (a b : JSInt) : JSInt :=
  b.map (fun bv => jsShl a 8 + bv)

/-- `Array.prototype.reduce` with no initial value over a non-empty list:
the first element seeds the accumulator. -/
def ipReduce : JSInt → List JSInt → JSInt
  | a, [] => a
  | a, b :: rest => ipReduce (ipStep a b) rest

/-- `ipToInt(ip)`: `ip.split(".").map(Number).reduce((a, b) => (a << 8) + b)`.
Never throws: `Number` never throws and the split list is non-empty. -/
def ipToIntL (l : List Char) : JSInt :=
  match (splitCh '.' l).map jsNumberOct with
  | [] => none   -- unreachable: `splitCh` never returns `[]`
  | a :: rest => ipReduce a rest

def ipToInt (s : String) : JSInt := ipToIntL s.data

/-- `intToIp(n)`: `[n >>> 24, (n >> 16) & 255, (n >> 8) & 255, n & 255].join(".")`.
Each component is a non-negative JS number rendered in decimal. -/
def intToIp (n : JSInt) : String :=
  String.mk (natChars (jsUshr n 24)
    ++ '.' :: natChars (jsAnd (some (jsShr n 16)) (some 255)).toNat
    ++ '.' :: natChars (jsAnd (some (jsShr n 8)) (some 255)).toNat
    ++ '.' :: natChars (jsAnd n (some 255)).toNat)

/-- The canonical textual form of a four-octet address (each octet in its
shortest decimal form), used to state the round-trip property. -/
def canonIp (a b c d : Nat) : String :=
  String.mk (natChars a ++ '.' :: natChars b ++ '.' :: natChars c ++ '.' :: natChars d)

/-- The numeric core of `parseCIDR` (after the format checks): bitmask,
`network = baseInt & mask`, `first = network >>> 0`,
`last = (network + size - 1) >>> 0`. -/
def networkBounds (baseInt : JSInt) (bits : Nat) : Nat × Nat :=
  let mask : Nat := if bits = 0 then 0 else toUint32 (jsShl (some (jsNot (some 0))) (32 - bits))
  let network : Int := jsAnd baseInt (some (mask : Int))
  (toUint32 network, toUint32 (network + 2 ^ (32 - bits) - 1))

/-- `parseCIDR(cidr)`: split at `/`, `parseInt` the prefix length, reject
when the base piece is empty or the prefix length is `NaN` or outside
`[0, 32]`; `none` models the thrown `Bad CIDR` error.  The base address
itself is *not* validated: `ipToInt` is total. -/
def parseCIDR (s : String) : Option (Nat × Nat) :=
  let parts := splitCh '/' s.data
  let base := parts.headI
  match (parts[1]?).bind jsParseInt with
  | none => none
  | some b =>
    if base = [] ∨ b < 0 ∨ b > 32 then none
    else some (networkBounds (ipToIntL base) b.toNat)

/-- The rejection condition of `parseCIDR`, phrased from the spec side:
the textual form cannot be split into a (non-empty) base and a prefix
length that parses to an integer in `[0, 32]`. -/
def cidrRejected (s : String) : Prop :=
  let parts := splitCh '/' s.data
  parts.headI = [] ∨ ∀ b, (parts[1]?).bind jsParseInt = some b → b < 0 ∨ b > 32

/-- The loop of `list24Blocks`: `for (let b = start24; b <= end24; b += 256)
blocks.push(b >>> 0)`, over signed 32-bit `start24`/`end24`.  Structured
with explicit fuel so that it is structurally recursive; `stepBlocks`
supplies fuel `(e + 256 - b).toNat`, which always bounds the iteration
count. -/
def stepBlocksF : Nat → Int → Int → List Nat
  | 0, _, _ => []
  | fuel + 1, b, e => if b ≤ e then toUint32 b :: stepBlocksF fuel (b + 256) e else []

def stepBlocks (b e : Int) : List Nat := stepBlocksF (e + 256 - b).toNat b e

/-- `list24Blocks` body after parsing: `start24 = first & 0xffffff00`,
`end24 = last & 0xffffff00` (signed 32-bit `&`), then the step-256 walk. -/
def list24 (first last : Nat) : List Nat :=
  stepBlocks (jsAnd (some (first : Int)) (some 0xffffff00))
    (jsAnd (some (last : Int)) (some 0xffffff00))

/-- `list24Blocks(cidr)` (scanner.js lines 27-34). -/
def list24Blocks (s : String) : Option (List Nat) :=
  (parseCIDR s).map (fun p => list24 p.1 p.2)

/-! ## Stage-A sampling (`sampleIPsIn24`) -/

/-- The fixed candidate offset table (the `min/max` clamp in the source is
the identity on these values but is kept). -/
def candidates : List Nat :=
  [10, 42, 77, 99, 123, 150, 180, 200, 220, 240].map (fun x => min 254 (max 1 x))

/-- Offset generated at loop index `idx`:
`o = candidates[idx % len] + (idx / len | 0)`, `off = 1 + ((o - 1) % 254)`. -/
def sampleOff (idx : Nat) : Nat :=
  1 + (candidates.getD (idx % candidates.length) 0 + idx / candidates.length - 1) % 254

/-- The `while (picks.size < min(k, 254))` loop, with explicit fuel (the
theorems show 2540 steps of fuel always suffice).  `picks` is kept in
insertion order, as a JS `Set` iterates. -/
def sampleLoop (picks : List Nat) (idx target : Nat) : Nat → List Nat
  | 0 => picks
  | fuel + 1 =>
    if picks.length < target then
      sampleLoop
        (if sampleOff idx ∈ picks then picks else picks ++ [sampleOff idx])
        (idx + 1) target fuel
    else picks

/-- The offsets `Array.from(picks).slice(0, k)` chosen for one sub-block
(they do not depend on the block). -/
def sampleOffsets (k : Nat) : List Nat :=
  (sampleLoop [] 0 (min k 254) 2540).take k

/-- `sampleIPsIn24(blockStartInt, k)` (scanner.js lines 35-50). -/
def sampleIPsIn24 (blockStartInt k : Nat) : List String :=
  (sampleOffsets k).map
    (fun (off : Nat) =>
      intToIp (some ((jsUshr (some ((blockStartInt : Int) + (off : Int))) 0 : Nat) : Int)))

/-- `ipsOf24(blockStartInt, limit)` (scanner.js lines 51-55): offsets
`0 .. min(limit, 256) - 1` in order, no exclusions. -/
def ipsOf24 (blockStartInt : Nat) (limit : Nat) : List String :=
  (List.range (min limit 256)).map
    (fun (off : Nat) =>
      intToIp (some ((jsUshr (some ((blockStartInt : Int) + (off : Int))) 0 : Nat) : Int)))

/-! ## The Stage Controller's target lists (`runSmartScan`) -/

/-- `const blocks = finalCidrs.flatMap((c) => list24Blocks(c))` — note: a
plain concatenation, with *no* deduplication of sub-blocks.  `none` models
a `Bad CIDR` exception escaping `runSmartScan`. -/
def blocksOfCidrs (cidrs : List String) : Option (List Nat) :=
  (cidrs.mapM list24Blocks).map List.flatten

/-- The Stage-A sample-target list (scanner.js lines 238-242): for each
entry of `blocks` — including duplicates — `samplesPer24` sampled targets. -/
def sampleTargetsOf (blocks : List Nat) (samplesPer24 : Nat) : List (Nat × String) :=
  blocks.flatMap (fun b => (sampleIPsIn24 b samplesPer24).map (fun ip => (b, ip)))

/-! ## Bounded executor (`createQueue`) -/

/-- The observable state of `createQueue`'s closure: the `active` counter
and the length of the FIFO `q`.  (Task identities are irrelevant to the
claims; admission depends only on these two numbers.) -/
structure QState where
  active : Nat
  queued : Nat
deriving DecidableEq, Repr

/-- The `pump` loop: `while (active < limit && q.length) { active++;
q.shift(); <start job> }`, structured as recursion on the queue length
(each iteration shifts one job). -/
def pumpQ (limit active : Nat) : Nat → QState
  | 0 => ⟨active, 0⟩
  | q + 1 => if active < limit then pumpQ limit (active + 1) q else ⟨active, q + 1⟩

def pump (limit : Nat) (s : QState) : QState := pumpQ limit s.active s.queued

/-- Events driving the queue: a `submit` (push + pump) or the settlement of
a running task (`.finally`: `active--; pump()`).  Settlement carries the
task's success flag, which the pump logic *ignores* — resolve and reject
take the same path. -/
inductive QEvent where
  | submit
  | finish (ok : Bool)
deriving DecidableEq, Repr

/-- One queue transition. -/
def qstep (limit : Nat) (s : QState) : QEvent → QState
  | .submit => pump limit ⟨s.active, s.queued + 1⟩
  | .finish _ => pump limit ⟨s.active - 1, s.queued⟩

/-- Run a sequence of events. -/
def runQ (limit : Nat) (s : QState) (es : List QEvent) : QState :=
  es.foldl (fun t e => qstep limit t e) s

/-- All states visited while running a sequence of events (including the
initial and final states). -/
def qStates (limit : Nat) (s : QState) : List QEvent → List QState
  | [] => [s]
  | e :: es => s :: qStates limit (qstep limit s e) es

/-! ## Probes (`tcpOpen`, `httpHead`, `pingOnce`) -/

/-- Which socket event settles a `tcpOpen` probe first. -/
inductive TcpEvent where
  | connect
  | timeout
  | error
deriving DecidableEq

/-- `tcpOpen` (scanner.js lines 78-98): resolves `true` on `connect`,
`false` on `timeout` or `error`; never rejects. -/
def tcpOpen : TcpEvent → Bool
  | .connect => true
  | .timeout => false
  | .error => false

/-- Which event settles an `httpHead` probe first. -/
inductive HttpEvent where
  | response
  | timeout
  | error
deriving DecidableEq

/-- `httpHead` (scanner.js lines 101-125): any response (any status code)
resolves `true`; `timeout` and `error` resolve `false`; never rejects. -/
def httpHead : HttpEvent → Bool
  | .response => true
  | .timeout => false
  | .error => false

/-- Case-insensitive literal match (pattern given in lowercase); returns
the remainder of the input on success. -/
def matchCI : List Char → List Char → Option (List Char)
  | [], l => some l
  | _ :: _, [] => none
  | p :: ps, c :: cs => if c.toLower = p then matchCI ps cs else none

/-- Is a character matched by the regex class `[\d.]`? -/
def isDigitDot (c : Char) : Bool := c.isDigit || c = '.'

/-- Try to match `time[=<]?\s*([\d.]+)\s*ms` (case-insensitively) at the
head of the input, returning the captured `[\d.]+` token. -/
def tryPingAt (l : List Char) : Option (List Char) :=
  match matchCI ['t', 'i', 'm', 'e'] l with
  | none => none
  | some r1 =>
    let r2 := match r1 with
      | '=' :: rest => rest
      | '<' :: rest => rest
      | _ => r1
    let r3 := r2.dropWhile (·.isWhitespace)
    let tok := r3.takeWhile isDigitDot
    if tok = [] then none
    else
      match matchCI ['m', 's'] ((r3.drop tok.length).dropWhile (·.isWhitespace)) with
      | none => none
      | some _ => some tok

/-- Leftmost match of the ping-latency regex over the whole output. -/
def pingSearch : List Char → Option (List Char)
  | [] => none
  | c :: cs =>
    match tryPingAt (c :: cs) with
    | some tok => some tok
    | none => pingSearch cs

/-- JS `parseFloat` restricted to `[\d.]+` tokens: leading digits, an
optional dot and fraction digits; `NaN` (`none`) when the token contains
no leading digits at all (e.g. `"."`). -/
def jsParseFloatTok (tok : List Char) : Option ℚ :=
  let intPart := tok.takeWhile (·.isDigit)
  match tok.drop intPart.length with
  | '.' :: rest2 =>
    let frac := rest2.takeWhile (·.isDigit)
    if intPart = [] ∧ frac = [] then none
    else some ((decVal intPart : ℚ) + (decVal frac : ℚ) / (10 : ℚ) ^ frac.length)
  | _ => if intPart = [] then none else some ((decVal intPart : ℚ))

/-- Result of `pingOnce`: `ms` is `none` for JS `null`, `some none` for a
`NaN` number (so that `typeof ms === "number"` is `ms.isSome`), and
`some (some q)` for an ordinary number. -/
structure PingRes where
  ok : Bool
  ms : Option (Option ℚ)
deriving DecidableEq

/-- How a `pingOnce` subprocess settles: a spawn `error`, or the `close`
event with the accumulated stdout+stderr text (a kill by the watchdog
timer also surfaces as `close` with partial output). -/
inductive PingEvent where
  | spawnError
  | close (out : String)

/-- `pingOnce` (scanner.js lines 129-153): on `close`, match the latency
regex — `{ok: true, ms: parseFloat(m[1])}` on success, `{ok: false,
ms: null}` otherwise; on spawn `error`, `{ok: false, ms: null}`.
Never rejects. -/
def pingOnce : PingEvent → PingRes
  | .spawnError => ⟨false, none⟩
  | .close out =>
    match pingSearch out.data with
    | some tok => ⟨true, some (jsParseFloatTok tok)⟩
    | none => ⟨false, none⟩

/-! ## Stage B validation and the aggregator -/

/-- The Stage-B per-target decision (scanner.js lines 283-313), as a
function of the probe outcomes: `tcpOpen` must pass; when `hostHeader` is
truthy (non-empty) `httpHead` must pass; the ping must report `ok` with a
numeric `ms`.  Returns the created ValidEntry, or `none`. -/
def stageBDecide (hostHeader ip : String) (tcp : Bool) (httpOk : Bool) (p : PingRes) :
    Option (String × Option ℚ) :=
  if tcp then
    if hostHeader ≠ "" ∧ httpOk = false then none
    else if p.ok then p.ms.map (fun m => (ip, m)) else none
  else none

/-- A validated entry: address and latency in milliseconds. -/
structure ValidEntry where
  ip : String
  ms : ℚ
deriving DecidableEq

/-- Stable insertion by latency: an element is placed before the first
element it is `≤`, hence after all earlier-discovered equal latencies. -/
def insertByMs (x : ValidEntry) : List ValidEntry → List ValidEntry
  | [] => [x]
  | y :: ys => if x.ms ≤ y.ms then x :: y :: ys else y :: insertByMs x ys

/-- `valid.sort((a, b) => a.ms - b.ms)`: `Array.prototype.sort` is required
to sort by the comparator and to be stable; modelled by stable insertion
sort. -/
def sortByMs : List ValidEntry → List ValidEntry
  | [] => []
  | x :: xs => insertByMs x (sortByMs xs)

/-- Zero-padding to three digits for the fractional part. -/
def pad3 (m : Nat) : String :=
  if m < 10 then "00" ++ String.mk (natChars m)
  else if m < 100 then "0" ++ String.mk (natChars m)
  else String.mk (natChars m)

/-- `ms.toFixed(3)` for the non-negative latencies involved: round to three
decimals and render with exactly three fraction digits. -/
def fmt3 (q : ℚ) : String :=
  let n := (Int.floor (q * 1000 + 1 / 2)).toNat
  String.mk (natChars (n / 1000)) ++ "." ++ pad3 (n % 1000)

/-- `valid.map(v => v.ip).join("\n")`. -/
def renderTxt (l : List ValidEntry) : String :=
  String.intercalate "\n" (l.map (fun v => v.ip))

/-- `"ip,ping_ms\n" + valid.map(v => v.ip + "," + v.ms.toFixed(3)).join("\n")`. -/
def renderCsv (l : List ValidEntry) : String :=
  "ip,ping_ms\n" ++ String.intercalate "\n" (l.map (fun v => v.ip ++ "," ++ fmt3 v.ms))

/-- Scan completion (scanner.js lines 315-318): sort the accumulated
entries by latency, then derive both output artifacts from the sorted
list. -/
def scanOutput (valid : List ValidEntry) : List ValidEntry × String × String :=
  let s := sortByMs valid
  (s, renderTxt s, renderCsv s)

/-! ## Lemmas: 32-bit coercions -/

theorem toUint32_lt (x : Int) : toUint32 x < 2 ^ 32 := by
  unfold toUint32
  omega

theorem toUint32_ofNat (n : Nat) (h : n < 2 ^ 32) : toUint32 (n : Int) = n := by
  unfold toUint32
  omega

theorem toInt32_of_lt {n : Nat} (h : n < 2 ^ 31) : toInt32 n = (n : Int) := by
  unfold toInt32
  rw [if_pos] <;> omega

theorem toInt32_of_ge {n : Nat} (h1 : 2 ^ 31 ≤ n) (h2 : n < 2 ^ 32) :
    toInt32 n = (n : Int) - 2 ^ 32 := by
  unfold toInt32
  rw [if_neg] <;> omega

theorem toUint32_toInt32 (n : Nat) (h : n < 2 ^ 32) : toUint32 (toInt32 n) = n := by
  unfold toUint32 toInt32
  split <;> omega

theorem toInt32_congr (n : Nat) : toInt32 n = toInt32 (n % 2 ^ 32) := by
  unfold toInt32
  rw [Nat.mod_mod_of_dvd n dvd_rfl]

/-! ## Lemmas: the masking identity

JS computes the network/sub-block alignment with `x & mask` where
`mask = 2^32 - 2^k` has its low `k` bits clear.  On 32-bit patterns this is
truncation to a multiple of `2^k`. -/

theorem land_high_mask (x k : Nat) (hx : x < 2 ^ 32) (hk : k ≤ 32) :
    Nat.land x (2 ^ 32 - 2 ^ k) = x / 2 ^ k * 2 ^ k := by
  have hmask : (2 ^ 32 - 2 ^ k : Nat) = 2 ^ k * (2 ^ (32 - k) - 1) := by
    have h2 : (2 ^ 32 : Nat) = 2 ^ k * 2 ^ (32 - k) := by
      rw [← pow_add]
      congr 1
      omega
    have h3 : (1:Nat) ≤ 2 ^ (32 - k) := Nat.one_le_two_pow
    have h5 : 2 ^ k * (2 ^ (32 - k) - 1) + 2 ^ k = 2 ^ k * 2 ^ (32 - k) := by
      rw [← Nat.mul_succ]
      congr 1
      omega
    omega
  apply Nat.eq_of_testBit_eq
  intro i
  show (x &&& (2 ^ 32 - 2 ^ k)).testBit i = _
  rw [Nat.testBit_and, hmask]
  rcases lt_or_le i k with hik | hik
  · -- low bits: both sides are false
    rw [Nat.testBit_mul_pow_two]
    have h1 : (x / 2 ^ k * 2 ^ k).testBit i = false := by
      have : x / 2 ^ k * 2 ^ k = 2 ^ k * (x / 2 ^ k) := by ring
      rw [this, Nat.testBit_mul_pow_two]
      simp [Nat.not_le_of_lt hik]
    rw [h1]
    simp [Nat.not_le_of_lt hik]
  · -- high bits
    have hmaskbit : (2 ^ k * (2 ^ (32 - k) - 1)).testBit i = decide (i < 32) := by
      rw [Nat.testBit_mul_pow_two]
      rcases lt_or_le i 32 with h32 | h32
      · simp only [ge_iff_le, hik, decide_True, Bool.true_and,
          Nat.testBit_two_pow_sub_one]
        have : i - k < 32 - k := by omega
        simp [this, h32]
      · simp only [ge_iff_le, hik, decide_True, Bool.true_and,
          Nat.testBit_two_pow_sub_one]
        have : ¬ (i - k < 32 - k) := by omega
        simp [this, h32, Nat.not_lt_of_le h32]
    have hq : (x / 2 ^ k * 2 ^ k).testBit i = x.testBit i := by
      have hcomm : x / 2 ^ k * 2 ^ k = 2 ^ k * (x / 2 ^ k) := by ring
      rw [hcomm, Nat.testBit_mul_pow_two]
      simp only [ge_iff_le, hik, decide_True, Bool.true_and]
      rw [← Nat.shiftRight_eq_div_pow, Nat.testBit_shiftRight]
      congr 1
      omega
    rw [hmaskbit, hq]
    rcases lt_or_le i 32 with h32 | h32
    · simp [h32]
    · have : x.testBit i = false := by
        apply Nat.testBit_lt_two_pow
        calc x < 2 ^ 32 := hx
        _ ≤ 2 ^ i := Nat.pow_le_pow_right (by norm_num) h32
      simp [this, h32, Nat.not_lt_of_le h32]

/-! ## Lemmas: the sampling loop -/

theorem sampleLoop_extend (fuel : Nat) :
    ∀ (picks : List Nat) (idx target : Nat),
      ∃ rest, sampleLoop picks idx target fuel = picks ++ rest := by
  induction fuel with
  | zero =>
    intro picks idx target
    exact ⟨[], (List.append_nil _).symm⟩
  | succ fuel ih =>
    intro picks idx target
    simp only [sampleLoop]
    by_cases h : picks.length < target
    · rw [if_pos h]
      by_cases hm : sampleOff idx ∈ picks
      · rw [if_pos hm]
        exact ih picks (idx + 1) target
      · rw [if_neg hm]
        obtain ⟨rest, hr⟩ := ih (picks ++ [sampleOff idx]) (idx + 1) target
        exact ⟨[sampleOff idx] ++ rest, by rw [hr, List.append_assoc]⟩
    · rw [if_neg h]
      exact ⟨[], (List.append_nil _).symm⟩

theorem sampleLoop_take (fuel : Nat) :
    ∀ (picks : List Nat) (idx t t2 : Nat), t ≤ t2 → picks.length ≤ t →
      sampleLoop picks idx t fuel = (sampleLoop picks idx t2 fuel).take t := by
  induction fuel with
  | zero =>
    intro picks idx t t2 htt hlen
    exact (List.take_of_length_le hlen).symm
  | succ fuel ih =>
    intro picks idx t t2 htt hlen
    simp only [sampleLoop]
    by_cases h : picks.length < t
    · have h2 : picks.length < t2 := lt_of_lt_of_le h htt
      rw [if_pos h, if_pos h2]
      apply ih _ _ _ _ htt
      by_cases hm : sampleOff idx ∈ picks
      · rw [if_pos hm]
        exact le_of_lt h
      · rw [if_neg hm]
        rw [List.length_append]
        simp only [List.length_cons, List.length_nil]
        omega
    · have hlen2 : picks.length = t := by omega
      rw [if_neg h]
      by_cases h2 : picks.length < t2
      · rw [if_pos h2]
        obtain ⟨rest, hr⟩ :=
          sampleLoop_extend fuel
            (if sampleOff idx ∈ picks then picks else picks ++ [sampleOff idx]) (idx + 1) t2
        rw [hr]
        by_cases hm : sampleOff idx ∈ picks
        · rw [if_pos hm] at hr ⊢
          rw [← hlen2, List.take_left]
        · rw [if_neg hm] at hr ⊢
          rw [List.append_assoc, ← hlen2, List.take_left]
      · rw [if_neg h2]
        exact (List.take_of_length_le hlen).symm

/-- The full run of the sampling loop (target 254): the canonical insertion
order of all 254 admissible offsets. -/
theorem sampleLoop_full :
    sampleLoop [] 0 254 2540 =
      [10, 42, 77, 99, 123, 150, 180, 200, 220, 240, 11, 43, 78, 100, 124, 151, 181,
       201, 221, 241, 12, 44, 79, 101, 125, 152, 182, 202, 222, 242, 13, 45, 80, 102,
       126, 153, 183, 203, 223, 243, 14, 46, 81, 103, 127, 154, 184, 204, 224, 244,
       15, 47, 82, 104, 128, 155, 185, 205, 225, 245, 16, 48, 83, 105, 129, 156, 186,
       206, 226, 246, 17, 49, 84, 106, 130, 157, 187, 207, 227, 247, 18, 50, 85, 107,
       131, 158, 188, 208, 228, 248, 19, 51, 86, 108, 132, 159, 189, 209, 229, 249,
       20, 52, 87, 109, 133, 160, 190, 210, 230, 250, 21, 53, 88, 110, 134, 161, 191,
       211, 231, 251, 22, 54, 89, 111, 135, 162, 192, 212, 232, 252, 23, 55, 90, 112,
       136, 163, 193, 213, 233, 253, 24, 56, 91, 113, 137, 164, 194, 214, 234, 254,
       25, 57, 92, 114, 138, 165, 195, 215, 235, 1, 26, 58, 93, 115, 139, 166, 196,
       216, 236, 2, 27, 59, 94, 116, 140, 167, 197, 217, 237, 3, 28, 60, 95, 117,
       141, 168, 198, 218, 238, 4, 29, 61, 96, 118, 142, 169, 199, 219, 239, 5, 30,
       62, 97, 119, 143, 170, 6, 31, 63, 98, 120, 144, 171, 7, 32, 64, 121, 145, 172,
       8, 33, 65, 122, 146, 173, 9, 34, 66, 147, 174, 35, 67, 148, 175, 36, 68, 149,
       176, 37, 69, 177, 38, 70, 178, 39, 71, 179, 40, 72, 41, 73, 74, 75, 76] := by
  decide

theorem sampleLoop_full_length : (sampleLoop [] 0 254 2540).length = 254 := by
  rw [sampleLoop_full]
  decide

theorem sampleLoop_full_nodup : (sampleLoop [] 0 254 2540).Nodup := by
  rw [sampleLoop_full]
  decide

theorem sampleLoop_full_mem : ∀ o ∈ sampleLoop [] 0 254 2540, 1 ≤ o ∧ o ≤ 254 := by
  rw [sampleLoop_full]
  decide

theorem sampleOffsets_eq (k : Nat) :
    sampleOffsets k = (sampleLoop [] 0 254 2540).take (min k 254) := by
  unfold sampleOffsets
  rw [sampleLoop_take 2540 [] 0 (min k 254) 254 (min_le_right _ _) (by simp)]
  rw [List.take_take]
  congr 1
  omega

theorem sampleOffsets_length (k : Nat) : (sampleOffsets k).length = min k 254 := by
  rw [sampleOffsets_eq, List.length_take, sampleLoop_full_length]
  omega

theorem sampleOffsets_nodup (k : Nat) : (sampleOffsets k).Nodup := by
  rw [sampleOffsets_eq]
  exact sampleLoop_full_nodup.sublist (List.take_sublist _ _)

theorem sampleOffsets_mem (k : Nat) : ∀ o ∈ sampleOffsets k, 1 ≤ o ∧ o ≤ 254 := by
  rw [sampleOffsets_eq]
  intro o ho
  exact sampleLoop_full_mem o ((List.take_sublist _ _).mem ho)

theorem sampleIPsIn24_length (b k : Nat) : (sampleIPsIn24 b k).length = min k 254 := by
  unfold sampleIPsIn24
  rw [List.length_map]
  exact sampleOffsets_length k

/-! ## Lemmas: `networkBounds` -/

theorem toUint32V_lt (a : JSInt) : toUint32V a < 2 ^ 32 := by
  cases a with
  | none => decide
  | some v => exact toUint32_lt v

/-- The bitmask computed for a prefix length in `[1, 32]`. -/
theorem mask_eq (bits : Nat) (h1 : 1 ≤ bits) (h2 : bits ≤ 32) :
    toUint32 (jsShl (some (jsNot (some 0))) (32 - bits)) = 2 ^ 32 - 2 ^ (32 - bits) := by
  have hnot : jsNot (some 0) = -1 := by decide
  rw [hnot]
  have hu : toUint32V (some (-1)) = 2 ^ 32 - 1 := by decide
  unfold jsShl
  rw [hu]
  have hc : (32 - bits) % 32 = 32 - bits := Nat.mod_eq_of_lt (by omega)
  rw [hc]
  have hple : (2 : Nat) ^ (32 - bits) ≤ 2 ^ 31 :=
    Nat.pow_le_pow_right (by norm_num) (by omega)
  have hp1 : (1 : Nat) ≤ 2 ^ (32 - bits) := Nat.one_le_two_pow
  rw [toInt32_congr]
  have hmod : ((2 ^ 32 - 1) * 2 ^ (32 - bits)) % 2 ^ 32 = 2 ^ 32 - 2 ^ (32 - bits) := by
    omega
  rw [hmod]
  exact toUint32_toInt32 _ (by omega)

theorem toUint32_toInt32_add (f : Nat) (d : Int) (hf : f < 2 ^ 32)
    (h0 : 0 ≤ (f : Int) + d) (h1 : (f : Int) + d < 2 ^ 32) :
    toUint32 (toInt32 f + d) = ((f : Int) + d).toNat := by
  unfold toUint32 toInt32
  split <;> omega

/-- For a prefix length in `[1, 32]`, `networkBounds` truncates the base
value to a multiple of the network size and spans exactly one network. -/
theorem networkBounds_eq (v : JSInt) (bits : Nat) (h1 : 1 ≤ bits) (h2 : bits ≤ 32) :
    networkBounds v bits =
      (toUint32V v / 2 ^ (32 - bits) * 2 ^ (32 - bits),
       toUint32V v / 2 ^ (32 - bits) * 2 ^ (32 - bits) + (2 ^ (32 - bits) - 1)) := by
  unfold networkBounds
  have hbits0 : bits ≠ 0 := by omega
  simp only [hbits0, if_false, ite_false]
  rw [mask_eq bits h1 h2]
  set k := 32 - bits with hk
  set u := toUint32V v with huv
  have hu_lt : u < 2 ^ 32 := toUint32V_lt v
  have hmask_lt : (2 ^ 32 - 2 ^ k : Nat) < 2 ^ 32 := by
    have : (1:Nat) ≤ 2 ^ k := Nat.one_le_two_pow
    omega
  have hand : jsAnd v (some ((2 ^ 32 - 2 ^ k : Nat) : Int)) =
      toInt32 (u / 2 ^ k * 2 ^ k) := by
    unfold jsAnd
    rw [show toUint32V (some ((2 ^ 32 - 2 ^ k : Nat) : Int)) = 2 ^ 32 - 2 ^ k from
      toUint32_ofNat _ hmask_lt]
    rw [← huv, land_high_mask u k hu_lt (by omega)]
  rw [hand]
  set f := u / 2 ^ k * 2 ^ k with hf
  have hf_mult : f + 2 ^ k ≤ 2 ^ 32 := by
    have hdvd : (2 : Nat) ^ k ∣ 2 ^ 32 := pow_dvd_pow 2 (by omega)
    obtain ⟨q, hq⟩ := hdvd
    have hfu : f ≤ u := Nat.div_mul_le_self u _
    have hflt : u / 2 ^ k < q := by
      by_contra hcon
      push_neg at hcon
      have : q * 2 ^ k ≤ u / 2 ^ k * 2 ^ k := Nat.mul_le_mul_right _ hcon
      have h32 : (2:Nat) ^ 32 ≤ f := by
        calc (2:Nat) ^ 32 = 2 ^ k * q := hq
        _ = q * 2 ^ k := by ring
        _ ≤ u / 2 ^ k * 2 ^ k := this
      omega
    have : (u / 2 ^ k + 1) * 2 ^ k ≤ q * 2 ^ k := Nat.mul_le_mul_right _ hflt
    calc f + 2 ^ k = (u / 2 ^ k + 1) * 2 ^ k := by ring
    _ ≤ q * 2 ^ k := this
    _ = 2 ^ k * q := by ring
    _ = 2 ^ 32 := hq.symm
  have hp1 : (1:Nat) ≤ 2 ^ k := Nat.one_le_two_pow
  have hfirst : toUint32 (toInt32 f) = f := toUint32_toInt32 f (by omega)
  have hlast : toUint32 (toInt32 f + 2 ^ (32 - bits) - 1) = f + (2 ^ k - 1) := by
    have hcast : (2 : Int) ^ (32 - bits) = ((2 ^ k : Nat) : Int) := by
      rw [← hk]
      push_cast
      ring
    have : toInt32 f + 2 ^ (32 - bits) - 1 = toInt32 f + (((2 ^ k : Nat) : Int) - 1) := by
      rw [hcast]
      ring
    rw [this, toUint32_toInt32_add f _ (by omega) (by omega) (by omega)]
    omega
  rw [hfirst, hlast]

/-- `networkBounds` with prefix length `0`: the whole address space. -/
theorem networkBounds_zero (v : JSInt) :
    networkBounds v 0 = (0, 2 ^ 32 - 1) := by
  unfold networkBounds
  simp only [if_pos rfl, ite_true]
  have h0 : toUint32V (some ((0 : Nat) : Int)) = 0 := by decide
  have hand : jsAnd v (some ((0 : Nat) : Int)) = 0 := by
    unfold jsAnd
    rw [h0, show Nat.land (toUint32V v) 0 = 0 from Nat.and_zero _]
    decide
  rw [hand]
  decide

/-! ## Lemmas: the sub-block walk -/

theorem stepBlocksF_nil (fuel : Nat) (b e : Int) (h : e < b) :
    stepBlocksF fuel b e = [] := by
  cases fuel with
  | zero => rfl
  | succ fuel =>
    unfold stepBlocksF
    rw [if_neg (by omega)]

theorem stepBlocks_nil (b e : Int) (h : e < b) : stepBlocks b e = [] :=
  stepBlocksF_nil _ b e h

theorem stepBlocksF_eq :
    ∀ (n fuel : Nat) (b : Int), n < fuel →
      stepBlocksF fuel b (b + 256 * n) =
        (List.range (n + 1)).map (fun (i : Nat) => toUint32 (b + 256 * (i : Int))) := by
  intro n
  induction n with
  | zero =>
    intro fuel b hf
    obtain ⟨f, rfl⟩ : ∃ f, fuel = f + 1 := ⟨fuel - 1, by omega⟩
    have h0 : b + 256 * ((0 : Nat) : Int) = b := by norm_num
    rw [h0]
    unfold stepBlocksF
    rw [if_pos le_rfl]
    rw [stepBlocksF_nil f (b + 256) b (by omega)]
    rw [show List.range 1 = [0] from rfl, List.map_singleton, h0]
  | succ n ih =>
    intro fuel b hf
    obtain ⟨f, rfl⟩ : ∃ f, fuel = f + 1 := ⟨fuel - 1, by omega⟩
    have hle : b ≤ b + 256 * ((n + 1 : Nat) : Int) := by
      push_cast
      omega
    unfold stepBlocksF
    rw [if_pos hle]
    have harg : b + 256 * ((n + 1 : Nat) : Int) = (b + 256) + 256 * (n : Int) := by
      push_cast
      ring
    rw [harg, ih f (b + 256) (by omega)]
    rw [List.range_succ_eq_map (n + 1), List.map_cons, List.map_map]
    congr 1
    · norm_num
    · apply List.map_congr_left
      intro i _
      simp only [Function.comp_apply]
      congr 1
      push_cast
      ring

theorem stepBlocks_eq (n : Nat) (b : Int) :
    stepBlocks b (b + 256 * n) =
      (List.range (n + 1)).map (fun (i : Nat) => toUint32 (b + 256 * (i : Int))) := by
  unfold stepBlocks
  have h1 : (b + 256 * (n : Int) + 256 - b).toNat = 256 * n + 256 := by omega
  rw [h1]
  exact stepBlocksF_eq n (256 * n + 256) b (by omega)

/-- If `p` divides `f` and `B` and `f < B` then even `f + p ≤ B`. -/
theorem add_dvd_le {p f B : Nat} (hp : p ∣ f) (hB : p ∣ B) (h : f < B) :
    f + p ≤ B := by
  obtain ⟨m, rfl⟩ := hp
  obtain ⟨q, rfl⟩ := hB
  rcases Nat.eq_zero_or_pos p with hp0 | hp0
  · subst hp0
    simp at h
  · have hmq : m < q := by
      by_contra hcon
      push_neg at hcon
      exact absurd (Nat.mul_le_mul_left p hcon) (by omega)
    calc p * m + p = p * (m + 1) := by ring
    _ ≤ p * q := Nat.mul_le_mul_left p (by omega)

/-- Characterization of `list24` on a well-formed pair `first ≤ last`
that does not straddle the signed 32-bit boundary: the aligned walk from
`first`'s partition to `last`'s partition. -/
theorem list24_eq (f l : Nat) (hfl : f ≤ l) (hl : l < 2 ^ 32)
    (hside : f < 2 ^ 31 ↔ l < 2 ^ 31) :
    list24 f l =
      (List.range ((l / 256 * 256 - f / 256 * 256) / 256 + 1)).map
        (fun i => f / 256 * 256 + 256 * i) := by
  have hf32 : f < 2 ^ 32 := lt_of_le_of_lt hfl hl
  have hmask : toUint32V (some ((0xffffff00 : Nat) : Int)) = 2 ^ 32 - 2 ^ 8 := by decide
  have hstart : jsAnd (some ((f : Nat) : Int)) (some 0xffffff00) =
      toInt32 (f / 256 * 256) := by
    unfold jsAnd
    rw [show toUint32V (some ((f : Nat) : Int)) = f from toUint32_ofNat f hf32]
    rw [show ((0xffffff00 : Int)) = (((0xffffff00 : Nat) : Int)) from by norm_num, hmask]
    rw [land_high_mask f 8 hf32 (by norm_num)]
    norm_num
  have hend : jsAnd (some ((l : Nat) : Int)) (some 0xffffff00) =
      toInt32 (l / 256 * 256) := by
    unfold jsAnd
    rw [show toUint32V (some ((l : Nat) : Int)) = l from toUint32_ofNat l hl]
    rw [show ((0xffffff00 : Int)) = (((0xffffff00 : Nat) : Int)) from by norm_num, hmask]
    rw [land_high_mask l 8 hl (by norm_num)]
    norm_num
  unfold list24
  rw [hstart, hend]
  set a24 := f / 256 * 256 with ha24
  set b24 := l / 256 * 256 with hb24
  have hab : a24 ≤ b24 := by
    have : f / 256 ≤ l / 256 := Nat.div_le_div_right hfl
    exact Nat.mul_le_mul_right 256 this
  have ha_le : a24 ≤ f := Nat.div_mul_le_self f 256
  have hb_le : b24 ≤ l := Nat.div_mul_le_self l 256
  have hf_lt : f < a24 + 256 := by
    have h := Nat.div_add_mod f 256
    have h2 : f % 256 < 256 := Nat.mod_lt f (by norm_num)
    omega
  have hdvd_a : (256 : Nat) ∣ a24 := ⟨f / 256, by rw [ha24]; ring⟩
  have hdvd_b : (256 : Nat) ∣ b24 := ⟨l / 256, by rw [hb24]; ring⟩
  have hdiff : 256 ∣ b24 - a24 := Nat.dvd_sub' hdvd_b hdvd_a
  obtain ⟨n, hn⟩ := hdiff
  have hneq : (b24 - a24) / 256 = n := by omega
  rw [hneq]
  by_cases hfside : f < 2 ^ 31
  · -- both halves below 2^31
    have hl31 : l < 2 ^ 31 := hside.mp hfside
    have ha31 : a24 < 2 ^ 31 := lt_of_le_of_lt ha_le hfside
    have hb31 : b24 < 2 ^ 31 := lt_of_le_of_lt hb_le hl31
    rw [toInt32_of_lt ha31, toInt32_of_lt hb31]
    have harg : ((b24 : Nat) : Int) = ((a24 : Nat) : Int) + 256 * n := by
      omega
    rw [harg, stepBlocks_eq n]
    apply List.map_congr_left
    intro i hi
    have hi2 : i ≤ n := by
      have := List.mem_range.mp hi
      omega
    have hval : a24 + 256 * i < 2 ^ 32 := by
      have : a24 + 256 * i ≤ a24 + 256 * n := by omega
      omega
    have hcast : ((a24 : Nat) : Int) + 256 * (i : Int) = ((a24 + 256 * i : Nat) : Int) := by
      push_cast
      ring
    rw [hcast, toUint32_ofNat _ hval]
  · -- both halves at or above 2^31
    push_neg at hfside
    have hl31 : 2 ^ 31 ≤ l := by
      rcases lt_or_le l (2 ^ 31) with h | h
      · exact absurd (hside.mpr h) (by omega)
      · exact h
    have ha31 : 2 ^ 31 ≤ a24 := by
      rcases lt_or_le a24 (2 ^ 31) with h | h
      · have := add_dvd_le hdvd_a (by norm_num) h
        omega
      · exact h
    have hb31 : 2 ^ 31 ≤ b24 := le_trans ha31 hab
    have hb32 : b24 < 2 ^ 32 := lt_of_le_of_lt hb_le hl
    have ha32 : a24 < 2 ^ 32 := lt_of_le_of_lt hab hb32
    rw [toInt32_of_ge ha31 ha32, toInt32_of_ge hb31 hb32]
    have harg : ((b24 : Nat) : Int) - 2 ^ 32 = (((a24 : Nat) : Int) - 2 ^ 32) + 256 * n := by
      push_cast
      omega
    rw [harg, stepBlocks_eq n]
    apply List.map_congr_left
    intro i hi
    have hi2 : i ≤ n := by
      have := List.mem_range.mp hi
      omega
    have hval : a24 + 256 * i < 2 ^ 32 := by
      have : a24 + 256 * i ≤ a24 + 256 * n := by omega
      omega
    unfold toUint32
    have : ((a24 : Nat) : Int) - 2 ^ 32 + 256 * (i : Int) =
        ((a24 + 256 * i : Nat) : Int) - 2 ^ 32 := by
      push_cast
      ring
    rw [this]
    omega

/-! ## Lemmas: the bounded executor -/

theorem pumpQ_eq (limit active q : Nat) :
    pumpQ limit active q =
      ⟨active + min (limit - active) q, q - min (limit - active) q⟩ := by
  induction q generalizing active with
  | zero => simp [pumpQ]
  | succ q ih =>
    unfold pumpQ
    by_cases h : active < limit
    · rw [if_pos h, ih (active + 1)]
      simp only [QState.mk.injEq]
      constructor <;> omega
    · rw [if_neg h]
      simp only [QState.mk.injEq]
      constructor <;> omega

theorem pump_eq (limit : Nat) (s : QState) :
    pump limit s =
      ⟨s.active + min (limit - s.active) s.queued,
       s.queued - min (limit - s.active) s.queued⟩ :=
  pumpQ_eq limit s.active s.queued

theorem pump_active_le (limit : Nat) (s : QState) (h : s.active ≤ limit) :
    (pump limit s).active ≤ limit := by
  rw [pump_eq]
  simp only []
  omega

theorem qstep_active_le (limit : Nat) (s : QState) (e : QEvent) (h : s.active ≤ limit) :
    (qstep limit s e).active ≤ limit := by
  cases e with
  | submit =>
    apply pump_active_le
    exact h
  | finish ok =>
    apply pump_active_le
    simp only []
    omega

theorem qStates_active_le (limit : Nat) (es : List QEvent) :
    ∀ s : QState, s.active ≤ limit → ∀ t ∈ qStates limit s es, t.active ≤ limit := by
  induction es with
  | nil =>
    intro s h t ht
    simp only [qStates, List.mem_singleton] at ht
    exact ht ▸ h
  | cons e es ih =>
    intro s h t ht
    simp only [qStates, List.mem_cons] at ht
    rcases ht with rfl | ht
    · exact h
    · exact ih (qstep limit s e) (qstep_active_le limit s e h) t ht

theorem submit_inv (limit r : Nat) :
    qstep limit ⟨min limit r, r - min limit r⟩ .submit =
      ⟨min limit (r + 1), (r + 1) - min limit (r + 1)⟩ := by
  unfold qstep
  rw [pump_eq]
  simp only [QState.mk.injEq]
  constructor <;> omega

theorem finish_inv (limit r : Nat) (hL : 1 ≤ limit) (hr : 1 ≤ r) (ok : Bool) :
    qstep limit ⟨min limit r, r - min limit r⟩ (.finish ok) =
      ⟨min limit (r - 1), (r - 1) - min limit (r - 1)⟩ := by
  show pump limit ⟨min limit r - 1, r - min limit r⟩ =
    (⟨min limit (r - 1), (r - 1) - min limit (r - 1)⟩ : QState)
  rw [pump_eq]
  simp only [QState.mk.injEq]
  constructor <;> omega

theorem runQ_submits (limit : Nat) :
    ∀ j : Nat, runQ limit ⟨0, 0⟩ (List.replicate j .submit) =
      ⟨min limit j, j - min limit j⟩ := by
  intro j
  induction j with
  | zero => simp [runQ]
  | succ j ih =>
    rw [List.replicate_succ']
    unfold runQ at ih ⊢
    rw [List.foldl_append, ih]
    exact submit_inv limit j

theorem runQ_drain (limit : Nat) (hL : 1 ≤ limit) :
    ∀ (oks : List Bool) (r : Nat), oks.length ≤ r →
      runQ limit ⟨min limit r, r - min limit r⟩ (oks.map .finish) =
        ⟨min limit (r - oks.length), (r - oks.length) - min limit (r - oks.length)⟩ := by
  intro oks
  induction oks with
  | nil =>
    intro r h
    simp [runQ]
  | cons ok oks ih =>
    intro r h
    simp only [List.map_cons, List.length_cons] at h ⊢
    unfold runQ at ih ⊢
    rw [List.foldl_cons]
    rw [show qstep limit ⟨min limit r, r - min limit r⟩ (.finish ok) =
      ⟨min limit (r - 1), (r - 1) - min limit (r - 1)⟩ from
      finish_inv limit r hL (by omega) ok]
    rw [ih (r - 1) (by omega)]
    simp only [QState.mk.injEq]
    constructor <;> · congr 1 <;> omega

/-! ## Lemmas: string splitting and octet rendering -/

theorem splitCh_no_sep (sep : Char) :
    ∀ l : List Char, sep ∉ l → splitCh sep l = [l] := by
  intro l
  induction l with
  | nil => intro _; rfl
  | cons c cs ih =>
    intro h
    have hc : ¬ (c = sep) := by
      intro hcs
      exact h (hcs ▸ List.mem_cons_self c cs)
    have hcs : sep ∉ cs := fun hmem => h (List.mem_cons_of_mem c hmem)
    unfold splitCh
    rw [if_neg hc, ih hcs]

theorem splitCh_append (sep : Char) :
    ∀ (x y : List Char), sep ∉ x →
      splitCh sep (x ++ sep :: y) = x :: splitCh sep y := by
  intro x
  induction x with
  | nil =>
    intro y _
    show splitCh sep (sep :: y) = [] :: splitCh sep y
    conv_lhs => rw [splitCh]
    rw [if_pos rfl]
  | cons c cs ih =>
    intro y h
    have hc : ¬ (c = sep) := by
      intro hcs
      exact h (hcs ▸ List.mem_cons_self c cs)
    have hcs : sep ∉ cs := fun hmem => h (List.mem_cons_of_mem c hmem)
    show splitCh sep (c :: (cs ++ sep :: y)) = (c :: cs) :: splitCh sep y
    conv_lhs => rw [splitCh]
    rw [if_neg hc, ih y hcs]

/-- For every octet value, the canonical decimal numeral is read back by
the modelled `Number` and contains no separator characters. -/
theorem octet_facts :
    ∀ n : Nat, n < 256 →
      jsNumberOct (natChars n) = some ((n : Nat) : Int) ∧
      '.' ∉ natChars n ∧ '/' ∉ natChars n := by
  decide

/-! ## Lemmas: `ipToInt` on canonical four-octet strings -/

theorem toInt32_add_small (m d : Nat) (_hm : m < 2 ^ 32) (hmod : m % 256 = 0)
    (hd : d < 256) : toInt32 m + (d : Int) = toInt32 (m + d) := by
  unfold toInt32
  split <;> split <;> omega

theorem jsShl8_ofNat (a : Nat) (ha : a < 2 ^ 24) :
    jsShl (some ((a : Nat) : Int)) 8 = toInt32 (a * 256) := by
  unfold jsShl
  rw [show toUint32V (some ((a : Nat) : Int)) = a from toUint32_ofNat a (by omega)]
  norm_num

theorem ipToIntL_canon (a b c d : Nat) (ha : a < 256) (hb : b < 256)
    (hc : c < 256) (hd : d < 256) :
    ipToIntL (canonIp a b c d).data =
      some (toInt32 (a * 2 ^ 24 + b * 2 ^ 16 + c * 2 ^ 8 + d)) := by
  obtain ⟨hna, hdota, -⟩ := octet_facts a ha
  obtain ⟨hnb, hdotb, -⟩ := octet_facts b hb
  obtain ⟨hnc, hdotc, -⟩ := octet_facts c hc
  obtain ⟨hnd, hdotd, -⟩ := octet_facts d hd
  have hdata : (canonIp a b c d).data =
      natChars a ++ '.' :: (natChars b ++ '.' :: (natChars c ++ '.' :: natChars d)) := by
    show natChars a ++ '.' :: natChars b ++ '.' :: natChars c ++ '.' :: natChars d = _
    simp [List.append_assoc]
  have hsplit : splitCh '.' ((canonIp a b c d).data) =
      [natChars a, natChars b, natChars c, natChars d] := by
    rw [hdata, splitCh_append '.' _ _ hdota, splitCh_append '.' _ _ hdotb,
      splitCh_append '.' _ _ hdotc, splitCh_no_sep '.' _ hdotd]
  have hred : ipToIntL (canonIp a b c d).data =
      ipReduce (jsNumberOct (natChars a))
        [jsNumberOct (natChars b), jsNumberOct (natChars c), jsNumberOct (natChars d)] := by
    unfold ipToIntL
    rw [hsplit]
    rfl
  rw [hred, hna, hnb, hnc, hnd]
  have step1 : ipStep (some ((a : Nat) : Int)) (some ((b : Nat) : Int)) =
      some (((a * 256 + b : Nat) : Int)) := by
    show some (jsShl (some ((a : Nat) : Int)) 8 + ((b : Nat) : Int)) = _
    rw [jsShl8_ofNat a (by omega), toInt32_of_lt (show a * 256 < 2 ^ 31 by omega)]
    congr 1
  have step2 : ipStep (some ((a * 256 + b : Nat) : Int)) (some ((c : Nat) : Int)) =
      some ((((a * 256 + b) * 256 + c : Nat) : Int)) := by
    show some (jsShl (some ((a * 256 + b : Nat) : Int)) 8 + ((c : Nat) : Int)) = _
    rw [jsShl8_ofNat (a * 256 + b) (by omega),
      toInt32_of_lt (show (a * 256 + b) * 256 < 2 ^ 31 by omega)]
    congr 1
  have step3 : ipStep (some (((a * 256 + b) * 256 + c : Nat) : Int)) (some ((d : Nat) : Int)) =
      some (toInt32 (a * 2 ^ 24 + b * 2 ^ 16 + c * 2 ^ 8 + d)) := by
    show some (jsShl (some (((a * 256 + b) * 256 + c : Nat) : Int)) 8 + ((d : Nat) : Int)) = _
    rw [jsShl8_ofNat ((a * 256 + b) * 256 + c) (by omega)]
    rw [toInt32_add_small _ d (by omega) (by omega) hd]
    rw [show ((a * 256 + b) * 256 + c) * 256 + d =
      a * 2 ^ 24 + b * 2 ^ 16 + c * 2 ^ 8 + d from by omega]
  show ipReduce (some ((a : Nat) : Int))
      [some ((b : Nat) : Int), some ((c : Nat) : Int), some ((d : Nat) : Int)] = _
  simp only [ipReduce]
  rw [step1, step2, step3]

/-! ## Lemmas: `intToIp` byte extraction -/

theorem jsUshr_24 (T : Nat) (hT : T < 2 ^ 32) :
    jsUshr (some (toInt32 T)) 24 = T / 2 ^ 24 := by
  show toUint32 (toInt32 T) / 2 ^ (24 % 32) = _
  rw [toUint32_toInt32 T hT]

theorem jsShr_byte (T k : Nat) (hT : T < 2 ^ 32) (hk : k = 16 ∨ k = 8) :
    (jsAnd (some (jsShr (some (toInt32 T)) k)) (some 255)).toNat = T / 2 ^ k % 256 := by
  have hk32 : k % 32 = k := by omega
  have hfd : jsShr (some (toInt32 T)) k = toInt32 T / 2 ^ k := by
    show Int.fdiv (toInt32 (toUint32 (toInt32 T))) (2 ^ (k % 32)) = _
    rw [toUint32_toInt32 T hT, hk32]
    exact Int.fdiv_eq_ediv _ (by positivity)
  rw [hfd]
  show (toInt32 (Nat.land (toUint32 (toInt32 T / 2 ^ k)) (toUint32V (some (255 : Int))))).toNat = _
  rw [show toUint32V (some (255 : Int)) = 255 from by decide]
  rw [show Nat.land (toUint32 (toInt32 T / 2 ^ k)) 255 =
    toUint32 (toInt32 T / 2 ^ k) &&& (2 ^ 8 - 1) from by norm_num [HAnd.hAnd, AndOp.and]]
  rw [Nat.and_pow_two_sub_one_eq_mod]
  have hsmall : toUint32 (toInt32 T / 2 ^ k) % 2 ^ 8 < 2 ^ 31 := by
    have := Nat.mod_lt (toUint32 (toInt32 T / 2 ^ k)) (show 0 < 2 ^ 8 by norm_num)
    omega
  rw [toInt32_of_lt hsmall]
  unfold toUint32 toInt32
  rcases hk with rfl | rfl <;> · split <;> omega

theorem jsAnd_255 (T : Nat) (hT : T < 2 ^ 32) :
    (jsAnd (some (toInt32 T)) (some 255)).toNat = T % 256 := by
  show (toInt32 (Nat.land (toUint32 (toInt32 T)) (toUint32V (some (255 : Int))))).toNat = _
  rw [toUint32_toInt32 T hT, show toUint32V (some (255 : Int)) = 255 from by decide]
  rw [show Nat.land T 255 = T &&& (2 ^ 8 - 1) from by norm_num [HAnd.hAnd, AndOp.and]]
  rw [Nat.and_pow_two_sub_one_eq_mod]
  have hsmall : T % 2 ^ 8 < 2 ^ 31 := by
    have := Nat.mod_lt T (show 0 < 2 ^ 8 by norm_num)
    omega
  rw [toInt32_of_lt hsmall]
  omega

theorem intToIp_toInt32 (T : Nat) (hT : T < 2 ^ 32) :
    intToIp (some (toInt32 T)) =
      canonIp (T / 2 ^ 24) (T / 2 ^ 16 % 256) (T / 2 ^ 8 % 256) (T % 256) := by
  unfold intToIp canonIp
  rw [jsUshr_24 T hT, jsShr_byte T 16 hT (Or.inl rfl), jsShr_byte T 8 hT (Or.inr rfl),
    jsAnd_255 T hT]

/-! ## Lemmas: the stable latency sort -/

theorem mem_insertByMs (x : ValidEntry) (l : List ValidEntry) (z : ValidEntry) :
    z ∈ insertByMs x l ↔ z = x ∨ z ∈ l := by
  induction l with
  | nil => simp [insertByMs]
  | cons y ys ih =>
    unfold insertByMs
    by_cases h : x.ms ≤ y.ms
    · rw [if_pos h]
      simp only [List.mem_cons]
    · rw [if_neg h]
      simp only [List.mem_cons, ih]
      tauto

theorem sorted_insertByMs (x : ValidEntry) (l : List ValidEntry)
    (h : l.Pairwise (fun a b => a.ms ≤ b.ms)) :
    (insertByMs x l).Pairwise (fun a b => a.ms ≤ b.ms) := by
  induction l with
  | nil => simp [insertByMs]
  | cons y ys ih =>
    rw [List.pairwise_cons] at h
    unfold insertByMs
    by_cases hx : x.ms ≤ y.ms
    · rw [if_pos hx]
      rw [List.pairwise_cons]
      constructor
      · intro z hz
        rcases List.mem_cons.mp hz with rfl | hz2
        · exact hx
        · exact le_trans hx (h.1 z hz2)
      · rw [List.pairwise_cons]
        exact h
    · rw [if_neg hx]
      rw [List.pairwise_cons]
      constructor
      · intro z hz
        rcases (mem_insertByMs x ys z).mp hz with rfl | hz2
        · exact le_of_not_le hx
        · exact h.1 z hz2
      · exact ih h.2

theorem sorted_sortByMs (l : List ValidEntry) :
    (sortByMs l).Pairwise (fun a b => a.ms ≤ b.ms) := by
  induction l with
  | nil => simp [sortByMs]
  | cons x xs ih => exact sorted_insertByMs x (sortByMs xs) ih

theorem filter_insertByMs (x : ValidEntry) (l : List ValidEntry) (q : ℚ) :
    (insertByMs x l).filter (fun e => decide (e.ms = q)) =
      if x.ms = q then x :: l.filter (fun e => decide (e.ms = q))
      else l.filter (fun e => decide (e.ms = q)) := by
  induction l with
  | nil =>
    by_cases h : x.ms = q <;> simp [insertByMs, List.filter, h]
  | cons y ys ih =>
    unfold insertByMs
    by_cases hx : x.ms ≤ y.ms
    · rw [if_pos hx]
      by_cases h : x.ms = q <;> simp [List.filter_cons, h]
    · rw [if_neg hx]
      rw [List.filter_cons, List.filter_cons, ih]
      by_cases h : x.ms = q
      · have hy : ¬ (y.ms = q) := by
          intro hyq
          exact hx (le_of_eq (h.trans hyq.symm))
        simp [h, hy]
      · by_cases hy : y.ms = q <;> simp [h, hy]

theorem filter_sortByMs (l : List ValidEntry) (q : ℚ) :
    (sortByMs l).filter (fun e => decide (e.ms = q)) =
      l.filter (fun e => decide (e.ms = q)) := by
  induction l with
  | nil => rfl
  | cons x xs ih =>
    show (insertByMs x (sortByMs xs)).filter _ = _
    rw [filter_insertByMs, ih, List.filter_cons]
    by_cases h : x.ms = q <;> simp [h]

/-! # The claims -/

/-- **C1** (counterexample): two overlapping input ranges that yield the
same SubBlock.  `runSmartScan` builds `blocks` with a plain `flatMap`, so
the block `10.0.0.0` appears twice, and with `samplesPer24 = 3` the
Stage-A sample-target list has `6` entries although there is only `1`
distinct SubBlock — not the claimed `3` targets for the distinct block. -/
theorem c1_counterexample :
    blocksOfCidrs ["10.0.0.0/24", "10.0.0.0/25"] = some [167772160, 167772160] ∧
    (sampleTargetsOf [167772160, 167772160] 3).length = 6 ∧
    [167772160, 167772160].dedup.length = 1 ∧
    (6 : Nat) ≠ 3 * 1 := by
  decide

/-- **C1** (amended): the Stage Controller does *not* deduplicate
sub-blocks before sampling.  The Stage-A sample-target list contains
`min samplesPer24 254` targets for each *occurrence* of a SubBlock in the
concatenated per-range block list, so a SubBlock produced by several
overlapping ranges is sampled once per contributing range.  (Set-semantics
deduplication happens only later, at the `hotBlocks` set, before the
Stage-B expansion.) -/
theorem c1_sampleTargets_per_occurrence (blocks : List Nat) (samplesPer24 : Nat) :
    (sampleTargetsOf blocks samplesPer24).length =
      blocks.length * min samplesPer24 254 := by
  unfold sampleTargetsOf
  rw [List.length_flatMap]
  have hc : ∀ b ∈ blocks,
      (List.length ∘ fun b => (sampleIPsIn24 b samplesPer24).map (fun ip => (b, ip))) b =
        min samplesPer24 254 := by
    intro b _
    simp only [Function.comp_apply, List.length_map]
    exact sampleIPsIn24_length b samplesPer24
  rw [List.map_congr_left hc]
  rw [show (fun _ => min samplesPer24 254) = Function.const Nat (min samplesPer24 254) from rfl]
  rw [List.map_const, List.sum_replicate, smul_eq_mul]

/-- **C2** (counterexample): the claim includes prefix length `0`, the one
range that spans the signed 32-bit boundary.  There `start24` is `0` but
`end24` is the *signed* reading of `0xffffff00`, i.e. `-256`, so the loop
body never runs: the result is the empty list, not the claimed non-empty
list of `(0xffffff00 - 0)/256 + 1 = 2^24` sub-blocks. -/
theorem c2_counterexample :
    list24Blocks "0.0.0.0/0" = some [] ∧
    ([] : List Nat).length ≠ (0xffffff00 - 0) / 256 + 1 := by
  decide

/-- **C2** (amended): for every base value and every prefix length in
`[1, 32]` — where the parsed network cannot straddle the signed 32-bit
boundary — `list24Blocks` aligns `first` and `last` down to their
256-address partitions and returns every partition start from the first to
the last inclusive, stepping by 256: a non-empty list of length
`(align(last) - align(first))/256 + 1`.  For prefix length `0` (the range
spanning `2^31`) the signed comparison `start24 <= end24` fails
immediately and the result is empty. -/
theorem c2_list24Blocks (v : JSInt) (bits : Nat) (hb : bits ≤ 32) :
    (1 ≤ bits →
      list24 (networkBounds v bits).1 (networkBounds v bits).2 =
        (List.range
            (((networkBounds v bits).2 / 256 * 256 -
              (networkBounds v bits).1 / 256 * 256) / 256 + 1)).map
          (fun i => (networkBounds v bits).1 / 256 * 256 + 256 * i) ∧
      list24 (networkBounds v bits).1 (networkBounds v bits).2 ≠ []) ∧
    (bits = 0 → list24 (networkBounds v bits).1 (networkBounds v bits).2 = []) := by
  constructor
  · intro h1
    rw [networkBounds_eq v bits h1 hb]
    dsimp only
    set k := 32 - bits with hk
    set u := toUint32V v with hu
    set F := u / 2 ^ k * 2 ^ k with hF
    have hp1 : (1 : Nat) ≤ 2 ^ k := Nat.one_le_two_pow
    have hFu : F ≤ u := Nat.div_mul_le_self u _
    have hu32 : u < 2 ^ 32 := toUint32V_lt v
    have hdvdF : (2 : Nat) ^ k ∣ F := ⟨u / 2 ^ k, by rw [hF]; ring⟩
    have hF32 : F + 2 ^ k ≤ 2 ^ 32 :=
      add_dvd_le hdvdF (pow_dvd_pow 2 (by omega)) (by omega)
    have hside : F < 2 ^ 31 ↔ F + (2 ^ k - 1) < 2 ^ 31 := by
      constructor
      · intro h
        have := add_dvd_le hdvdF (pow_dvd_pow 2 (by omega : k ≤ 31)) h
        omega
      · intro h
        omega
    have hlist := list24_eq F (F + (2 ^ k - 1)) (by omega) (by omega) hside
    exact ⟨hlist, by
      rw [hlist]
      intro hnil
      have := congrArg List.length hnil
      rw [List.length_map, List.length_range] at this
      simp at this⟩
  · intro h0
    subst h0
    rw [networkBounds_zero]
    decide

/-- **C2** witness: `151.101.0.0/16` (base value `2539978752`, above
`2^31`): 256 sub-blocks, none lost, and the prefix-0 clause. -/
theorem c2_list24Blocks_witness :
    (24 : Nat) ≤ 32 ∧
    ((1 ≤ 24 →
      list24 (networkBounds (some 2539978752) 24).1 (networkBounds (some 2539978752) 24).2 =
        (List.range
            (((networkBounds (some 2539978752) 24).2 / 256 * 256 -
              (networkBounds (some 2539978752) 24).1 / 256 * 256) / 256 + 1)).map
          (fun i => (networkBounds (some 2539978752) 24).1 / 256 * 256 + 256 * i) ∧
      list24 (networkBounds (some 2539978752) 24).1 (networkBounds (some 2539978752) 24).2 ≠ []) ∧
    (24 = 0 → list24 (networkBounds (some 2539978752) 24).1
        (networkBounds (some 2539978752) 24).2 = [])) :=
  ⟨by decide, c2_list24Blocks (some 2539978752) 24 (by decide)⟩

/-- **C3** (counterexample): a base address with only three octets parses
successfully.  `parseCIDR` validates only the prefix-length part; the base
address is folded by the total `ipToInt`, so `"1.2.3/8"` yields the range
`(0, 16777215)` instead of the claimed failure. -/
theorem c3_counterexample :
    parseCIDR "1.2.3/8" = some (0, 16777215) ∧ parseCIDR "1.2.3/8" ≠ none := by
  decide

/-- **C3** (amended): `parse` fails (models the `Bad CIDR` error) *exactly*
when the textual form cannot be split into a non-empty base piece and a
prefix-length token that `parseInt`s to an integer in `[0, 32]`.  A
malformed base address — three or five octets, octet values above 255,
non-numeric text — is **not** rejected: `ipToInt` never throws. -/
theorem c3_parseCIDR_none_iff (s : String) : parseCIDR s = none ↔ cidrRejected s := by
  unfold parseCIDR cidrRejected
  cases hX : ((splitCh '/' s.data)[1]?).bind jsParseInt with
  | none =>
    simp [hX]
  | some b =>
    simp only [hX]
    have hiff : ((splitCh '/' s.data).headI = [] ∨
        ∀ b2, some b = some b2 → b2 < 0 ∨ b2 > 32) ↔
        ((splitCh '/' s.data).headI = [] ∨ b < 0 ∨ b > 32) := by
      constructor
      · rintro (h | h)
        · exact Or.inl h
        · exact Or.inr (h b rfl)
      · rintro (h | h)
        · exact Or.inl h
        · refine Or.inr (fun b2 hb2 => ?_)
          rw [← Option.some.inj hb2]
          exact h
    rw [hiff]
    by_cases hcond : (splitCh '/' s.data).headI = [] ∨ b < 0 ∨ b > 32
    · simp [if_pos hcond, hcond]
    · simp [if_neg hcond, hcond]

/-- **C4**: for every base-address value (well-formed bases always produce
one; alignment is not assumed) and every prefix length `p ≤ 32` —
including the boundary cases `p = 0` and `p = 32` — `networkBounds`
returns `first ≤ last`, both exact unsigned 32-bit values, with
`last - first + 1 = 2^(32-p)`. -/
theorem c4_networkBounds (v : JSInt) (bits : Nat) (hb : bits ≤ 32) :
    (networkBounds v bits).1 ≤ (networkBounds v bits).2 ∧
    (networkBounds v bits).2 < 2 ^ 32 ∧
    (networkBounds v bits).2 - (networkBounds v bits).1 + 1 = 2 ^ (32 - bits) := by
  rcases Nat.eq_zero_or_pos bits with rfl | hpos
  · rw [networkBounds_zero]
    decide
  · rw [networkBounds_eq v bits hpos hb]
    dsimp only
    set k := 32 - bits with hk
    set u := toUint32V v with hu
    set F := u / 2 ^ k * 2 ^ k with hF
    have hp1 : (1 : Nat) ≤ 2 ^ k := Nat.one_le_two_pow
    have hFu : F ≤ u := Nat.div_mul_le_self u _
    have hu32 : u < 2 ^ 32 := toUint32V_lt v
    have hdvdF : (2 : Nat) ^ k ∣ F := ⟨u / 2 ^ k, by rw [hF]; ring⟩
    have hF32 : F + 2 ^ k ≤ 2 ^ 32 :=
      add_dvd_le hdvdF (pow_dvd_pow 2 (by omega)) (by omega)
    refine ⟨by omega, by omega, by omega⟩

/-- **C4** witness: the non-aligned base `151.101.65.67/16` (a negative
signed 32-bit base-address value). -/
theorem c4_networkBounds_witness :
    (16 : Nat) ≤ 32 ∧
    ((networkBounds (some (-1754971837)) 16).1 ≤ (networkBounds (some (-1754971837)) 16).2 ∧
    (networkBounds (some (-1754971837)) 16).2 < 2 ^ 32 ∧
    (networkBounds (some (-1754971837)) 16).2 - (networkBounds (some (-1754971837)) 16).1 + 1 =
      2 ^ (32 - 16)) :=
  ⟨by decide, c4_networkBounds (some (-1754971837)) 16 (by decide)⟩

/-- **C5**: for every sub-block start `b` and every `k ≥ 1`,
`sampleIPsIn24 b k` terminates (2540 fuel steps provably suffice for the
modelled `while` loop) with exactly `min k 254` addresses; the chosen
offsets are pairwise distinct, all in `[1, 254]` (never 0 or 255), and the
address list is exactly those offsets applied to the block.  The function
is pure, so repeated calls with the same `b` and `k` are definitionally
equal — determinism is inherent in the embedding. -/
theorem c5_sampleIPsIn24 (b k : Nat) (_hk : 1 ≤ k) :
    (sampleIPsIn24 b k).length = min k 254 ∧
    (sampleOffsets k).Nodup ∧
    (∀ o ∈ sampleOffsets k, 1 ≤ o ∧ o ≤ 254) ∧
    sampleIPsIn24 b k =
      (sampleOffsets k).map
        (fun (off : Nat) =>
          intToIp (some ((jsUshr (some ((b : Int) + (off : Int))) 0 : Nat) : Int))) := by
  exact ⟨sampleIPsIn24_length b k, sampleOffsets_nodup k, sampleOffsets_mem k, rfl⟩

/-- **C5** witness: the block `10.0.0.0` with `k = 3`. -/
theorem c5_sampleIPsIn24_witness :
    (1 : Nat) ≤ 3 ∧
    ((sampleIPsIn24 167772160 3).length = min 3 254 ∧
    (sampleOffsets 3).Nodup ∧
    (∀ o ∈ sampleOffsets 3, 1 ≤ o ∧ o ≤ 254) ∧
    sampleIPsIn24 167772160 3 =
      (sampleOffsets 3).map
        (fun (off : Nat) =>
          intToIp (some ((jsUshr (some ((167772160 : Int) + (off : Int))) 0 : Nat) : Int)))) :=
  ⟨by decide, c5_sampleIPsIn24 167772160 3 (by decide)⟩

/-- **C6**: with concurrency limit `L ≥ 1`, (a) along *every* event
interleaving the `active` counter never exceeds `L`, and (b) submitting
`N` tasks and letting all of them settle — with an arbitrary pattern of
resolutions and rejections, since the pump's `.finally` ignores the
outcome — drains the queue back to the idle state: all `N` tasks settle
and no rejection stalls admission of later queued tasks. -/
theorem c6_createQueue (limit N : Nat) (oks : List Bool)
    (hL : 1 ≤ limit) (hN : oks.length = N) :
    (∀ es : List QEvent, ∀ t ∈ qStates limit ⟨0, 0⟩ es, t.active ≤ limit) ∧
    runQ limit ⟨0, 0⟩ (List.replicate N .submit ++ oks.map .finish) = ⟨0, 0⟩ := by
  constructor
  · intro es t ht
    exact qStates_active_le limit es ⟨0, 0⟩ (Nat.zero_le limit) t ht
  · have hsplit : runQ limit ⟨0, 0⟩ (List.replicate N .submit ++ oks.map .finish) =
        runQ limit (runQ limit ⟨0, 0⟩ (List.replicate N .submit)) (oks.map .finish) := by
      unfold runQ
      rw [List.foldl_append]
    rw [hsplit, runQ_submits limit N, runQ_drain limit hL oks N (by omega)]
    rw [hN]
    simp

/-- **C6** witness: limit 2, three tasks, the middle one rejecting. -/
theorem c6_createQueue_witness :
    (1 : Nat) ≤ 2 ∧ ([true, false, true] : List Bool).length = 3 ∧
    ((∀ es : List QEvent, ∀ t ∈ qStates 2 ⟨0, 0⟩ es, t.active ≤ 2) ∧
    runQ 2 ⟨0, 0⟩ (List.replicate 3 .submit ++ [true, false, true].map .finish) = ⟨0, 0⟩) :=
  ⟨by decide, by decide, c6_createQueue 2 3 [true, false, true] (by decide) (by decide)⟩

/-- **C7**: a Stage-B target becomes a ValidEntry *iff* the TCP probe
passes, the HTTP HEAD passes whenever a (non-empty) host header is
configured, and the ping reports `ok` (whose `ms` is then a number, by the
shape of `pingOnce` results).  With `hostHeader = ""` the HTTP check is
skipped entirely: the outcome does not depend on it, so a TCP-open,
ping-ok address is still a ValidEntry. -/
theorem c7_stageB (hostHeader ip : String) (tcp httpOk : Bool) (p : PingRes)
    (hwf : p.ok = true → p.ms.isSome = true) :
    ((stageBDecide hostHeader ip tcp httpOk p).isSome = true ↔
      (tcp = true ∧ (hostHeader ≠ "" → httpOk = true) ∧ p.ok = true)) ∧
    (∀ h1 h2 : Bool, stageBDecide "" ip tcp h1 p = stageBDecide "" ip tcp h2 p) := by
  constructor
  · unfold stageBDecide
    cases tcp with
    | false => simp
    | true =>
      by_cases hh : hostHeader = ""
      · have hcondF : ¬ (hostHeader ≠ "" ∧ httpOk = false) := by simp [hh]
        rw [if_pos rfl, if_neg hcondF]
        cases hok : p.ok with
        | false => simp [hok]
        | true =>
          have hms := hwf hok
          simp [hh, Option.isSome_map, hms]
      · cases hok2 : httpOk with
        | false =>
          have hcondT : hostHeader ≠ "" ∧ (false : Bool) = false := ⟨hh, rfl⟩
          rw [if_pos rfl, if_pos hcondT]
          simp [hh]
        | true =>
          have hcondF : ¬ (hostHeader ≠ "" ∧ (true : Bool) = false) := by simp
          rw [if_pos rfl, if_neg hcondF]
          cases hok : p.ok with
          | false => simp [hok]
          | true =>
            have hms := hwf hok
            simp [hh, Option.isSome_map, hms]
  · intro h1 h2
    unfold stageBDecide
    simp

/-- **C7** witness: no host header configured, TCP open, HTTP probe
failing, ping ok at 5 ms — still a ValidEntry. -/
theorem c7_stageB_witness :
    ((⟨true, some (some 5)⟩ : PingRes).ok = true →
      (⟨true, some (some 5)⟩ : PingRes).ms.isSome = true) ∧
    (((stageBDecide "" "10.0.0.10" true false ⟨true, some (some 5)⟩).isSome = true ↔
      (true = true ∧ ("" ≠ "" → false = true) ∧ (⟨true, some (some 5)⟩ : PingRes).ok = true)) ∧
    (∀ h1 h2 : Bool, stageBDecide "" "10.0.0.10" true h1 ⟨true, some (some 5)⟩ =
      stageBDecide "" "10.0.0.10" true h2 ⟨true, some (some 5)⟩)) :=
  ⟨by decide, c7_stageB "" "10.0.0.10" true false ⟨true, some (some 5)⟩ (by decide)⟩

/-- **C8**: each probe is a *total* function of the settling I/O event —
no failure mode escapes as an exception.  TCP reachability is `true`
exactly on `connect` (refused/reset surface as `error`, hangs as
`timeout`, both `false`); HTTP HEAD is `true` exactly on a response;
`pingOnce` returns `{ok, ms}` with `ok = false, ms = null` on a spawn
error or whenever the output fails the latency regex — including
unparsable output after a watchdog kill. -/
theorem c8_probes :
    (∀ e : TcpEvent, tcpOpen e = true ↔ e = .connect) ∧
    (∀ e : HttpEvent, httpHead e = true ↔ e = .response) ∧
    pingOnce .spawnError = ⟨false, none⟩ ∧
    (∀ out : String,
      (pingOnce (.close out)).ok = true ∨ pingOnce (.close out) = ⟨false, none⟩) ∧
    (∀ out : String, pingSearch out.data = none → pingOnce (.close out) = ⟨false, none⟩) := by
  refine ⟨?_, ?_, rfl, ?_, ?_⟩
  · intro e
    cases e <;> simp [tcpOpen]
  · intro e
    cases e <;> simp [httpHead]
  · intro out
    cases h : pingSearch out.data with
    | some tok => exact Or.inl (by simp [pingOnce, h])
    | none => exact Or.inr (by simp [pingOnce, h])
  · intro out h
    simp [pingOnce, h]

/-- **C8** witness: output with no latency report collapses to a negative
outcome. -/
theorem c8_probes_witness :
    pingSearch ("Destination Host Unreachable" : String).data = none ∧
    pingOnce (.close "Destination Host Unreachable") = ⟨false, none⟩ :=
  ⟨by decide, c8_probes.2.2.2.2 "Destination Host Unreachable" (by decide)⟩

/-- **C9**: at completion, the ValidEntry list is sorted ascending by
latency; entries with equal latency keep their discovery order (for every
latency value, filtering the sorted list gives exactly the original
filtered sublist, in order); and both the plain-text and CSV artifacts are
rendered from this sorted list. -/
theorem c9_scanOutput (valid : List ValidEntry) :
    (scanOutput valid).1 = sortByMs valid ∧
    (sortByMs valid).Pairwise (fun a b => a.ms ≤ b.ms) ∧
    (∀ q : ℚ, (sortByMs valid).filter (fun e => decide (e.ms = q)) =
      valid.filter (fun e => decide (e.ms = q))) ∧
    (scanOutput valid).2.1 = renderTxt (sortByMs valid) ∧
    (scanOutput valid).2.2 = renderCsv (sortByMs valid) :=
  ⟨rfl, sorted_sortByMs valid, fun q => filter_sortByMs valid q, rfl, rfl⟩

/-- **C10** (counterexample): a string of four dot-separated octets in
0–255 written with a leading zero does not round-trip: parsing and
re-rendering canonicalizes it. -/
theorem c10_counterexample :
    intToIp (ipToInt "010.0.0.1") = "10.0.0.1" ∧
    ("10.0.0.1" : String) ≠ "010.0.0.1" := by
  decide

/-- **C10** (amended): for every *canonically written* four-octet address
(each octet 0–255 in shortest decimal form), `intToIp (ipToInt s) = s` —
even though `ipToInt` produces a negative signed 32-bit intermediate for
addresses at or above `128.0.0.0`.  Strings with leading-zero octets parse
to the same integer but re-render canonically, so they do not round-trip. -/
theorem c10_roundTrip (a b c d : Nat) (ha : a ≤ 255) (hb : b ≤ 255)
    (hc : c ≤ 255) (hd : d ≤ 255) :
    intToIp (ipToInt (canonIp a b c d)) = canonIp a b c d := by
  have h1 : ipToInt (canonIp a b c d) =
      some (toInt32 (a * 2 ^ 24 + b * 2 ^ 16 + c * 2 ^ 8 + d)) :=
    ipToIntL_canon a b c d (by omega) (by omega) (by omega) (by omega)
  rw [h1]
  have hT32 : a * 2 ^ 24 + b * 2 ^ 16 + c * 2 ^ 8 + d < 2 ^ 32 := by omega
  rw [intToIp_toInt32 _ hT32]
  have e1 : (a * 2 ^ 24 + b * 2 ^ 16 + c * 2 ^ 8 + d) / 2 ^ 24 = a := by omega
  have e2 : (a * 2 ^ 24 + b * 2 ^ 16 + c * 2 ^ 8 + d) / 2 ^ 16 % 256 = b := by omega
  have e3 : (a * 2 ^ 24 + b * 2 ^ 16 + c * 2 ^ 8 + d) / 2 ^ 8 % 256 = c := by omega
  have e4 : (a * 2 ^ 24 + b * 2 ^ 16 + c * 2 ^ 8 + d) % 256 = d := by omega
  rw [e1, e2, e3, e4]

/-- **C10** witness: `151.101.65.67`, an address above `2^31` whose
`ipToInt` value is negative. -/
theorem c10_roundTrip_witness :
    (151 : Nat) ≤ 255 ∧
    intToIp (ipToInt (canonIp 151 101 65 67)) = canonIp 151 101 65 67 :=
  ⟨by decide, c10_roundTrip 151 101 65 67 (by decide) (by decide) (by decide) (by decide)⟩

end SmartScan
